import Mathlib

/-!
Shallow embedding of the HR-Mel repository over exact real arithmetic.

Embedded sources:
* `src/hr_mel.py` — band records, compression dispatch, `encode_band` /
  `decode_band`, `encode_hr` / `decode_hr`, `build_hr_mel_basis`;
* `src/utils/analysis_utils.py` — `rel_error`, `mean_std`;
* `src/analyze_features.py` — `collect_audio_files`, the per-file result
  records, `aggregate_results`, and the effective-fmax computation in `main`;
* top-level `analyze_features.py` / `generate_mel_variants.py` — the
  hardcoded three-band encode/decode paths.

Conventions: a 2-D numpy array is a list of rows (`List (List ℝ)`); a Python
`slice(start, stop)` over rows is a pair `(start, stop) : ℕ × ℕ`; a raised
exception is `none` / `.error`; numpy ufuncs act elementwise, so a slice
assignment `m[sl] = f(m[sl])` is embedded as mapping the scalar transform over
the rows whose index lies in `[start, stop)` (`applyRows`).  The external
`librosa.filters.mel` collaborator is a parameter of the basis builder.
-/

namespace HRMel

noncomputable section

/-- `np.log1p` as a scalar function on exact reals: `log (1 + x)`. -/
def log1p (x : ℝ) : ℝ := Real.log (1 + x)

/-- `np.expm1` as a scalar function on exact reals: `exp y - 1`. -/
def expm1 (y : ℝ) : ℝ := Real.exp y - 1

/-- A band record `{"fmin": …, "fmax": …, "bins": …, "compression": …}`
from `hr_mel.py`. -/
structure Band where
  fmin : ℝ
  fmax : ℝ
  bins : ℕ
  compression : String

/-- `VALID_COMPRESSIONS` from `hr_mel.py`. -/
def VALID_COMPRESSIONS : List String := ["log1p", "sqrt_log1p", "pow075"]

/-- `DEFAULT_FMAX` from `hr_mel.py`. -/
def DEFAULT_FMAX : ℝ := 20000

/-- `DEFAULT_SR` from `hr_mel.py`. -/
def DEFAULT_SR : ℕ := 44100

/-- `DEFAULT_BANDS` from `hr_mel.py`: 40/32/24 bins, boundaries at 1500 Hz
and 6000 Hz, `log1p`/`log1p`/`sqrt_log1p` compression. -/
def DEFAULT_BANDS : List Band :=
  [ ⟨0, 1500, 40, "log1p"⟩,
    ⟨1500, 6000, 32, "log1p"⟩,
    ⟨6000, DEFAULT_FMAX, 24, "sqrt_log1p"⟩ ]

/-- The scalar transform selected by the `if`-chain of `encode_band` in
`hr_mel.py`; `none` models the `ValueError` raised on an unsupported tag. -/
def encodeFun (compression : String) : Option (ℝ → ℝ) :=
  if compression = "log1p" then some log1p
  else if compression = "sqrt_log1p" then some (fun x => Real.sqrt (log1p x))
  else if compression = "pow075" then some (fun x => x ^ (0.75 : ℝ))
  else none

/-- The scalar transform selected by the `if`-chain of `decode_band` in
`hr_mel.py`; `none` models the `ValueError` raised on an unsupported tag. -/
def decodeFun (compression : String) : Option (ℝ → ℝ) :=
  if compression = "log1p" then some expm1
  else if compression = "sqrt_log1p" then some (fun y => expm1 (y ^ 2))
  else if compression = "pow075" then some (fun y => y ^ ((1 : ℝ) / 0.75))
  else none

/-- A 2-D array as a list of rows. -/
abbrev Mat := List (List ℝ)

/-- `encode_band(values, compression)` from `hr_mel.py`: dispatch on the tag,
then apply the selected numpy ufunc elementwise; `none` models the raised
`ValueError`. -/
def encode_band (values : Mat) (compression : String) : Option Mat :=
  (encodeFun compression).map (fun f => values.map (fun r => r.map f))

/-- `decode_band(values, compression)` from `hr_mel.py`. -/
def decode_band (values : Mat) (compression : String) : Option Mat :=
  (decodeFun compression).map (fun f => values.map (fun r => r.map f))

/-- Row-slice update `m[a:b] = f(m[a:b])` for an elementwise `f`, with `i`
the index of the first row of `m` in the enclosing array. -/
def applyRowsFrom (f : ℝ → ℝ) (a b : ℕ) : ℕ → Mat → Mat
  | _, [] => []
  | i, r :: rs => (if a ≤ i ∧ i < b then r.map f else r) :: applyRowsFrom f a b (i + 1) rs

/-- Row-slice update `m[sl] = f(m[sl])` for an elementwise `f`. -/
def applyRows (f : ℝ → ℝ) (sl : ℕ × ℕ) (m : Mat) : Mat :=
  applyRowsFrom f sl.1 sl.2 0 m

/-- Common shape of `encode_hr` and `decode_hr` in `hr_mel.py`: start from a
copy of the input and, `for band, sl in zip(bands, slices)`, overwrite the
rows of slice `sl` with the band's transform; the first unsupported tag
aborts with the raised `ValueError` (`none`). -/
def hrApply (fnOf : String → Option (ℝ → ℝ)) (m : Mat)
    (slices : List (ℕ × ℕ)) (bands : List Band) : Option Mat :=
  (bands.zip slices).foldlM
    (fun acc p => (fnOf p.1.compression).map (fun f => applyRows f p.2 acc)) m

/-- `encode_hr(power, slices, bands)` from `hr_mel.py`. -/
def encode_hr (power : Mat) (slices : List (ℕ × ℕ)) (bands : List Band) : Option Mat :=
  hrApply encodeFun power slices bands

/-- `decode_hr(encoded, slices, bands)` from `hr_mel.py`. -/
def decode_hr (encoded : Mat) (slices : List (ℕ × ℕ)) (bands : List Band) : Option Mat :=
  hrApply decodeFun encoded slices bands

/-- The `slice(start, start + bins)` list accumulated by the loop of
`build_hr_mel_basis`, starting at row offset `start`. -/
def canonSlices (start : ℕ) : List Band → List (ℕ × ℕ)
  | [] => []
  | b :: bs => (start, start + b.bins) :: canonSlices (start + b.bins) bs

/-- The type of the external `librosa.filters.mel` collaborator:
arguments `sr`, `n_fft`, `n_mels`, `fmin`, `fmax`, result a filter matrix. -/
abbrev MelFn := ℕ → ℕ → ℕ → ℝ → ℝ → Mat

/-- The loop body of `build_hr_mel_basis` in `hr_mel.py`, carrying the running
row offset `start`: per band, clip the band `fmax` to the global `fmax`, call
the external mel-filter constructor, and record `slice(start, start+bins)`. -/
def buildAux (mel : MelFn) (sr n_fft : ℕ) (fmax : ℝ) (start : ℕ) :
    List Band → Mat × List (ℕ × ℕ)
  | [] => ([], [])
  | b :: bs =>
      let fmax_band := min b.fmax fmax
      let basis := mel sr n_fft b.bins b.fmin fmax_band
      let rest := buildAux mel sr n_fft fmax (start + b.bins) bs
      (basis ++ rest.1, (start, start + b.bins) :: rest.2)

/-- `build_hr_mel_basis(sr, n_fft, fmax, bands)` from `hr_mel.py`:
`np.vstack` of the per-band filter matrices plus the slice list.  The basis
builder performs no validation of its own; `librosa.filters.mel` is the
external parameter `mel`. -/
def build_hr_mel_basis (mel : MelFn) (sr n_fft : ℕ) (fmax : ℝ)
    (bands : List Band) : Mat × List (ℕ × ℕ) :=
  buildAux mel sr n_fft fmax 0 bands

/-- `fmax = min(args.fmax, target_sr / 2.0)` computed by `main` in
`analyze_features.py` (and both `generate_mel_variants.py` entry points). -/
def effective_fmax (req_fmax : ℝ) (target_sr : ℕ) : ℝ :=
  min req_fmax ((target_sr : ℝ) / 2)

end

section ScalarLemmas

lemma log1p_nonneg {x : ℝ} (hx : 0 ≤ x) : 0 ≤ log1p x :=
  Real.log_nonneg (by linarith)

lemma expm1_log1p {x : ℝ} (hx : 0 ≤ x) : expm1 (log1p x) = x := by
  unfold expm1 log1p
  rw [Real.exp_log (by linarith)]
  ring

lemma expm1_sq_sqrt_log1p {x : ℝ} (hx : 0 ≤ x) :
    expm1 (Real.sqrt (log1p x) ^ 2) = x := by
  rw [Real.sq_sqrt (log1p_nonneg hx)]
  exact expm1_log1p hx

lemma rpow_075_inv {x : ℝ} (hx : 0 ≤ x) :
    (x ^ (0.75 : ℝ)) ^ ((1 : ℝ) / 0.75) = x := by
  rw [← Real.rpow_mul hx]
  norm_num

end ScalarLemmas

section MatrixMachinery

/-- Entrywise non-negativity of a matrix (a power spectrogram). -/
def MatNonneg (m : Mat) : Prop := ∀ r ∈ m, ∀ x ∈ r, 0 ≤ x

/-- The single scalar transform that the band list applies to row `i` when the
slices are the canonical contiguous ones starting at `start` (rows owned by no
band are left unchanged). -/
noncomputable def transAt (fnOf : String → Option (ℝ → ℝ)) :
    ℕ → List Band → ℕ → ℝ → ℝ
  | _, [], _ => id
  | start, b :: bs, i =>
      if start ≤ i ∧ i < start + b.bins then (fnOf b.compression).getD id
      else transAt fnOf (start + b.bins) bs i

/-- Map a row-index-dependent scalar transform over a matrix, rows counted
from `i`. -/
def mapRowsIdx (g : ℕ → ℝ → ℝ) : ℕ → Mat → Mat
  | _, [] => []
  | i, r :: rs => r.map (g i) :: mapRowsIdx g (i + 1) rs

lemma transAt_of_lt (fnOf : String → Option (ℝ → ℝ)) :
    ∀ (bands : List Band) (start i : ℕ), i < start →
      transAt fnOf start bands i = id := by
  intro bands
  induction bands with
  | nil => intro start i _; rfl
  | cons b bs ih =>
      intro start i hi
      unfold transAt
      rw [if_neg (by omega)]
      exact ih (start + b.bins) i (by omega)

lemma mapRowsIdx_congr {g h : ℕ → ℝ → ℝ} (hgh : ∀ j x, g j x = h j x) :
    ∀ (i : ℕ) (m : Mat), mapRowsIdx g i m = mapRowsIdx h i m := by
  intro i m
  induction m generalizing i with
  | nil => rfl
  | cons r rs ih =>
      unfold mapRowsIdx
      rw [ih (i + 1)]
      congr 1
      exact List.map_congr_left (fun x _ => hgh i x)

lemma mapRowsIdx_eq_self {g : ℕ → ℝ → ℝ} (hg : ∀ j x, g j x = x) :
    ∀ (i : ℕ) (m : Mat), mapRowsIdx g i m = m := by
  intro i m
  induction m generalizing i with
  | nil => rfl
  | cons r rs ih =>
      unfold mapRowsIdx
      rw [ih (i + 1)]
      congr 1
      simpa using List.map_congr_left (fun x _ => hg i x)

lemma mapRowsIdx_eq_self_of_nonneg {g : ℕ → ℝ → ℝ}
    (hg : ∀ j x, 0 ≤ x → g j x = x) :
    ∀ (i : ℕ) (m : Mat), MatNonneg m → mapRowsIdx g i m = m := by
  intro i m
  induction m generalizing i with
  | nil => intro _; rfl
  | cons r rs ih =>
      intro hm
      unfold mapRowsIdx
      rw [ih (i + 1) (fun s hs => hm s (List.mem_cons_of_mem r hs))]
      congr 1
      simpa using
        List.map_congr_left (fun x hx => hg i x (hm r (List.mem_cons_self r rs) x hx))

lemma mapRowsIdx_mapRowsIdx (g h : ℕ → ℝ → ℝ) :
    ∀ (i : ℕ) (m : Mat),
      mapRowsIdx g i (mapRowsIdx h i m) = mapRowsIdx (fun j x => g j (h j x)) i m := by
  intro i m
  induction m generalizing i with
  | nil => rfl
  | cons r rs ih =>
      simp only [mapRowsIdx]
      rw [ih (i + 1), List.map_map]
      rfl

lemma applyRowsFrom_eq_mapRowsIdx (f : ℝ → ℝ) (a b : ℕ) :
    ∀ (i : ℕ) (m : Mat),
      applyRowsFrom f a b i m =
        mapRowsIdx (fun j x => if a ≤ j ∧ j < b then f x else x) i m := by
  intro i m
  induction m generalizing i with
  | nil => rfl
  | cons r rs ih =>
      unfold applyRowsFrom mapRowsIdx
      rw [ih (i + 1)]
      congr 1
      by_cases hc : a ≤ i ∧ i < b
      · simp [hc]
      · simp [hc]

lemma length_applyRowsFrom (f : ℝ → ℝ) (a b : ℕ) :
    ∀ (i : ℕ) (m : Mat), (applyRowsFrom f a b i m).length = m.length := by
  intro i m
  induction m generalizing i with
  | nil => rfl
  | cons r rs ih => simp [applyRowsFrom, ih (i + 1)]

lemma applyRowsFrom_getElem? (f : ℝ → ℝ) (a b : ℕ) :
    ∀ (i : ℕ) (m : Mat) (k : ℕ),
      (applyRowsFrom f a b i m)[k]? =
        (m[k]?).map (fun r => if a ≤ i + k ∧ i + k < b then r.map f else r) := by
  intro i m
  induction m generalizing i with
  | nil => intro k; rfl
  | cons r rs ih =>
      intro k
      cases k with
      | zero => simp [applyRowsFrom]
      | succ k =>
          unfold applyRowsFrom
          simp only [List.getElem?_cons_succ]
          rw [ih (i + 1) k]
          have : i + 1 + k = i + (k + 1) := by omega
          rw [this]

end MatrixMachinery
section HrApplyLemmas

lemma encodeFun_isSome_of_valid {c : String} (hc : c ∈ VALID_COMPRESSIONS) :
    (encodeFun c).isSome := by
  simp only [VALID_COMPRESSIONS, List.mem_cons, List.not_mem_nil, or_false] at hc
  rcases hc with h | h | h <;> simp [encodeFun, h]

lemma decodeFun_isSome_of_valid {c : String} (hc : c ∈ VALID_COMPRESSIONS) :
    (decodeFun c).isSome := by
  simp only [VALID_COMPRESSIONS, List.mem_cons, List.not_mem_nil, or_false] at hc
  rcases hc with h | h | h <;> simp [decodeFun, h]

/-- Round trip of the dispatched scalar transforms: for a supported tag and a
non-negative input, the decoder inverts the encoder exactly. -/
lemma decodeFun_encodeFun_of_valid {c : String} (hc : c ∈ VALID_COMPRESSIONS)
    {x : ℝ} (hx : 0 ≤ x) :
    (decodeFun c).getD id ((encodeFun c).getD id x) = x := by
  simp only [VALID_COMPRESSIONS, List.mem_cons, List.not_mem_nil, or_false] at hc
  rcases hc with h | h | h <;> subst h
  · simpa [encodeFun, decodeFun] using expm1_log1p hx
  · simpa [encodeFun, decodeFun] using expm1_sq_sqrt_log1p hx
  · simpa [encodeFun, decodeFun] using rpow_075_inv hx

/-- Pointwise description of `encode_hr`/`decode_hr` over the canonical
contiguous slices: row `i` is mapped by the transform of the unique band
owning it. -/
lemma hrApply_canonSlices (fnOf : String → Option (ℝ → ℝ)) :
    ∀ (bands : List Band) (start : ℕ) (M : Mat),
      (∀ b ∈ bands, (fnOf b.compression).isSome) →
      hrApply fnOf M (canonSlices start bands) bands =
        some (mapRowsIdx (transAt fnOf start bands) 0 M) := by
  intro bands
  induction bands with
  | nil =>
      intro start M _
      simp only [canonSlices, hrApply, List.zip_nil_left, List.foldlM_nil]
      exact congrArg some (mapRowsIdx_eq_self (fun _ _ => rfl) 0 M).symm
  | cons b bs ih =>
      intro start M hval
      obtain ⟨f, hf⟩ := Option.isSome_iff_exists.mp
        (hval b (List.mem_cons_self b bs))
      have hrest : ∀ b' ∈ bs, (fnOf b'.compression).isSome :=
        fun b' hb' => hval b' (List.mem_cons_of_mem b hb')
      simp only [canonSlices, hrApply, List.zip_cons_cons, List.foldlM_cons, hf,
        Option.map_some', Option.bind_eq_bind, Option.some_bind]
      have := ih (start + b.bins) (applyRows f (start, start + b.bins) M) hrest
      simp only [hrApply] at this
      rw [this]
      congr 1
      unfold applyRows
      rw [applyRowsFrom_eq_mapRowsIdx, mapRowsIdx_mapRowsIdx]
      apply mapRowsIdx_congr
      intro j x
      by_cases hj : start ≤ j ∧ j < start + b.bins
      · simp only [if_pos hj]
        rw [transAt_of_lt fnOf bs (start + b.bins) j hj.2]
        simp only [transAt, if_pos hj, hf, Option.getD_some, id]
      · simp only [if_neg hj]
        simp only [transAt, if_neg hj]

/-- Rows owned by none of the given slices are carried over unchanged by the
`encode_hr`/`decode_hr` loop, and the row count is preserved. -/
lemma hrApply_frame (fnOf : String → Option (ℝ → ℝ)) :
    ∀ (L : List (Band × (ℕ × ℕ))) (M E : Mat),
      L.foldlM (fun acc p => (fnOf p.1.compression).map
        (fun f => applyRows f p.2 acc)) M = some E →
      E.length = M.length ∧
        ∀ i : ℕ, (∀ p ∈ L, ¬ (p.2.1 ≤ i ∧ i < p.2.2)) → E[i]? = M[i]? := by
  intro L
  induction L with
  | nil =>
      intro M E hE
      have hME : M = E := Option.some.inj hE
      subst hME
      exact ⟨rfl, fun _ _ => rfl⟩
  | cons p ps ih =>
      intro M E hE
      simp only [List.foldlM_cons] at hE
      cases hfn : fnOf p.1.compression with
      | none => rw [hfn] at hE; simp at hE
      | some f =>
          rw [hfn] at hE
          simp only [Option.map_some', Option.bind_eq_bind, Option.some_bind] at hE
          obtain ⟨hlen, hout⟩ := ih (applyRows f p.2 M) E hE
          constructor
          · rw [hlen]; exact length_applyRowsFrom f p.2.1 p.2.2 0 M
          · intro i hi
            rw [hout i (fun q hq => hi q (List.mem_cons_of_mem p hq))]
            unfold applyRows
            rw [applyRowsFrom_getElem?]
            have hp := hi p (List.mem_cons_self p ps)
            simp only [Nat.zero_add, if_neg hp]
            cases M[i]? <;> rfl

/-- Round trip of the per-row transforms over the canonical slices. -/
lemma transAt_decode_encode :
    ∀ (bands : List Band), (∀ b ∈ bands, b.compression ∈ VALID_COMPRESSIONS) →
      ∀ (start j : ℕ) (x : ℝ), 0 ≤ x →
        transAt decodeFun start bands j (transAt encodeFun start bands j x) = x := by
  intro bands
  induction bands with
  | nil => intro _ start j x _; rfl
  | cons b bs ih =>
      intro hval start j x hx
      by_cases hj : start ≤ j ∧ j < start + b.bins
      · simp only [transAt, if_pos hj]
        exact decodeFun_encodeFun_of_valid (hval b (List.mem_cons_self b bs)) hx
      · simp only [transAt, if_neg hj]
        exact ih (fun b' hb' => hval b' (List.mem_cons_of_mem b hb')) (start + b.bins) j x hx

end HrApplyLemmas
section C1

/-- C1: for every supported compression tag in `{log1p, sqrt_log1p, pow075}`
and every non-negative real `x`, the decoder inverts the encoder exactly
(`decode_band ∘ encode_band = id` in exact arithmetic), and consequently over
the canonical band slices produced by `build_hr_mel_basis`, `decode_hr` is the
structural inverse of `encode_hr` on every matrix with non-negative entries. -/
theorem C1_compression_roundtrip :
    (∀ c ∈ VALID_COMPRESSIONS, ∀ x : ℝ, 0 ≤ x →
      ∃ f g, encodeFun c = some f ∧ decodeFun c = some g ∧ g (f x) = x)
    ∧ ∀ bands : List Band,
        (∀ b ∈ bands, b.compression ∈ VALID_COMPRESSIONS) →
        ∀ M : Mat, MatNonneg M →
          ∃ E, encode_hr M (canonSlices 0 bands) bands = some E ∧
            decode_hr E (canonSlices 0 bands) bands = some M := by
  constructor
  · intro c hc x hx
    obtain ⟨f, hf⟩ := Option.isSome_iff_exists.mp (encodeFun_isSome_of_valid hc)
    obtain ⟨g, hg⟩ := Option.isSome_iff_exists.mp (decodeFun_isSome_of_valid hc)
    refine ⟨f, g, hf, hg, ?_⟩
    have := decodeFun_encodeFun_of_valid hc hx
    rwa [hf, hg, Option.getD_some, Option.getD_some] at this
  · intro bands hval M hM
    refine ⟨mapRowsIdx (transAt encodeFun 0 bands) 0 M, ?_, ?_⟩
    · exact hrApply_canonSlices encodeFun bands 0 M
        (fun b hb => encodeFun_isSome_of_valid (hval b hb))
    · rw [decode_hr, hrApply_canonSlices decodeFun bands 0 _
        (fun b hb => decodeFun_isSome_of_valid (hval b hb))]
      rw [mapRowsIdx_mapRowsIdx]
      congr 1
      exact mapRowsIdx_eq_self_of_nonneg
        (fun j x hx => transAt_decode_encode bands hval 0 j x hx) 0 M hM

/-- Witness for C1 at the tag `sqrt_log1p`, `x = 3`, and the default band set
applied to the one-entry matrix `[[2]]`. -/
theorem C1_compression_roundtrip_witness :
    ("sqrt_log1p" ∈ VALID_COMPRESSIONS ∧ (0 : ℝ) ≤ 3 ∧
      ∃ f g, encodeFun "sqrt_log1p" = some f ∧ decodeFun "sqrt_log1p" = some g ∧
        g (f 3) = 3)
    ∧ (∀ b ∈ DEFAULT_BANDS, b.compression ∈ VALID_COMPRESSIONS)
    ∧ MatNonneg [[2]]
    ∧ ∃ E, encode_hr [[2]] (canonSlices 0 DEFAULT_BANDS) DEFAULT_BANDS = some E ∧
        decode_hr E (canonSlices 0 DEFAULT_BANDS) DEFAULT_BANDS = some [[2]] := by
  have hb : ∀ b ∈ DEFAULT_BANDS, b.compression ∈ VALID_COMPRESSIONS := by
    simp [DEFAULT_BANDS, VALID_COMPRESSIONS]
  have hm : MatNonneg [[2]] := by
    intro r hr x hx
    simp only [List.mem_singleton] at hr
    subst hr
    simp only [List.mem_singleton] at hx
    subst hx
    norm_num
  exact ⟨⟨by decide, by norm_num,
      C1_compression_roundtrip.1 "sqrt_log1p" (by decide) 3 (by norm_num)⟩,
    hb, hm, C1_compression_roundtrip.2 DEFAULT_BANDS hb [[2]] hm⟩

end C1
section C7

/-- C7: `encode_hr` and `decode_hr` build their result from a working copy
(the embedding is pure, so the input is never mutated), the result has the
same row count as the input, and every row outside the union of the given
band slices is carried over unchanged — only the row-slice owned by each band
is transformed. -/
theorem C7_frame :
    ∀ (bands : List Band) (slices : List (ℕ × ℕ)) (M : Mat),
      (∀ E, encode_hr M slices bands = some E →
        E.length = M.length ∧
          ∀ i : ℕ, (∀ sl ∈ slices, ¬ (sl.1 ≤ i ∧ i < sl.2)) → E[i]? = M[i]?)
      ∧ ∀ D, decode_hr M slices bands = some D →
          D.length = M.length ∧
            ∀ i : ℕ, (∀ sl ∈ slices, ¬ (sl.1 ≤ i ∧ i < sl.2)) → D[i]? = M[i]? := by
  intro bands slices M
  constructor
  · intro E hE
    obtain ⟨hlen, hout⟩ := hrApply_frame encodeFun (bands.zip slices) M E hE
    refine ⟨hlen, fun i hi => hout i ?_⟩
    rintro ⟨b, sl⟩ hp
    exact hi sl (List.of_mem_zip hp).2
  · intro D hD
    obtain ⟨hlen, hout⟩ := hrApply_frame decodeFun (bands.zip slices) M D hD
    refine ⟨hlen, fun i hi => hout i ?_⟩
    rintro ⟨b, sl⟩ hp
    exact hi sl (List.of_mem_zip hp).2

/-- Witness for C7: the default bands and slices applied to the one-row
matrix `[[5]]`; row index 100 lies outside every slice and is preserved. -/
theorem C7_frame_witness :
    encode_hr [[5]] (canonSlices 0 DEFAULT_BANDS) DEFAULT_BANDS =
        some [[log1p 5]] ∧
      ([[log1p 5]] : Mat).length = ([[5]] : Mat).length ∧
      (∀ sl ∈ canonSlices 0 DEFAULT_BANDS, ¬ (sl.1 ≤ 100 ∧ 100 < sl.2)) ∧
      ([[log1p 5]] : Mat)[100]? = ([[5]] : Mat)[100]? := by
  have henc : encode_hr [[5]] (canonSlices 0 DEFAULT_BANDS) DEFAULT_BANDS =
      some [[log1p 5]] := rfl
  have h100 : ∀ sl ∈ canonSlices 0 DEFAULT_BANDS, ¬ (sl.1 ≤ 100 ∧ 100 < sl.2) := by
    decide
  obtain ⟨hlen, hout⟩ :=
    (C7_frame DEFAULT_BANDS (canonSlices 0 DEFAULT_BANDS) [[5]]).1 [[log1p 5]] henc
  exact ⟨henc, hlen, h100, hout 100 h100⟩

end C7

section C10Machinery

/-- Adjacent row ranges updated with the same elementwise transform merge
into one range. -/
lemma applyRowsFrom_merge (f : ℝ → ℝ) (a b c : ℕ) (hab : a ≤ b) (hbc : b ≤ c)
    (i : ℕ) (m : Mat) :
    applyRowsFrom f b c i (applyRowsFrom f a b i m) = applyRowsFrom f a c i m := by
  rw [applyRowsFrom_eq_mapRowsIdx, applyRowsFrom_eq_mapRowsIdx,
    applyRowsFrom_eq_mapRowsIdx, mapRowsIdx_mapRowsIdx]
  apply mapRowsIdx_congr
  intro j x
  split_ifs <;> first | rfl | omega

/-- A row range whose upper bound already covers every row of the matrix can
use any other sufficiently large upper bound. -/
lemma applyRowsFrom_clip (f : ℝ → ℝ) (a : ℕ) :
    ∀ (b b' i : ℕ) (m : Mat), i + m.length ≤ b → i + m.length ≤ b' →
      applyRowsFrom f a b i m = applyRowsFrom f a b' i m := by
  intro b b' i m
  induction m generalizing i with
  | nil => intro _ _; rfl
  | cons r rs ih =>
      intro hb hb'
      simp only [List.length_cons] at hb hb'
      simp only [applyRowsFrom]
      congr 1
      · have h1 : i < b := by omega
        have h2 : i < b' := by omega
        by_cases ha : a ≤ i
        · simp [ha, h1, h2]
        · simp [ha]
      · exact ih (i + 1) (by omega) (by omega)

/-- Lookup in `mapRowsIdx`. -/
lemma mapRowsIdx_getElem? (g : ℕ → ℝ → ℝ) :
    ∀ (i : ℕ) (m : Mat) (k : ℕ),
      (mapRowsIdx g i m)[k]? = (m[k]?).map (fun r => r.map (g (i + k))) := by
  intro i m
  induction m generalizing i with
  | nil => intro k; rfl
  | cons r rs ih =>
      intro k
      cases k with
      | zero => simp [mapRowsIdx]
      | succ k =>
          simp only [mapRowsIdx, List.getElem?_cons_succ]
          rw [ih (i + 1) k]
          have : i + 1 + k = i + (k + 1) := by omega
          rw [this]

/-- The inline HR encoding inside `hr_mel` of the top-level
`generate_mel_variants.py`: `np.log1p` on `bands[0]` and `bands[1]`,
`np.sqrt(np.log1p(...))` on `bands[2]` (its own basis builder always returns
three slices; list indexing is embedded with a `(0, 0)` default). -/
noncomputable def hr_mel_encode (mel : Mat) (slices : List (ℕ × ℕ)) : Mat :=
  applyRows (fun x => Real.sqrt (log1p x)) (slices.getD 2 (0, 0))
    (applyRows log1p (slices.getD 1 (0, 0))
      (applyRows log1p (slices.getD 0 (0, 0)) mel))

/-- `decode_hr(encoded, slices)` from the top-level `analyze_features.py`:
split at `split_mid = slices[1].stop`, apply `np.expm1` to rows
`[:split_mid]` and `np.expm1(y ** 2)` to rows `[split_mid:]`, i.e. up to the
end of the array. -/
noncomputable def decode_hr_toplevel (encoded : Mat) (slices : List (ℕ × ℕ)) : Mat :=
  let split_mid := (slices.getD 1 (0, 0)).2
  applyRows (fun y => expm1 (y ^ 2)) (split_mid, encoded.length)
    (applyRows expm1 (0, split_mid) encoded)

end C10Machinery
section C10

/-- C10 (amended): for the default three-band configuration, the inline
encoding of the top-level `generate_mel_variants.py` equals the generic
`encode_hr` on every matrix; the top-level `analyze_features.py` decoder
equals the generic `decode_hr` on every matrix with at most 96 rows (the
shape produced by the pipeline) — on taller matrices the hardcoded decoder
also transforms the rows past index 96, which the generic decoder leaves
untouched. -/
theorem C10_default_paths_agree :
    ∀ M : Mat,
      encode_hr M (canonSlices 0 DEFAULT_BANDS) DEFAULT_BANDS =
          some (hr_mel_encode M (canonSlices 0 DEFAULT_BANDS))
      ∧ (M.length ≤ 96 →
          decode_hr M (canonSlices 0 DEFAULT_BANDS) DEFAULT_BANDS =
            some (decode_hr_toplevel M (canonSlices 0 DEFAULT_BANDS))) := by
  intro M
  constructor
  · rfl
  · intro h96
    show some (applyRowsFrom (fun y => expm1 (y ^ 2)) 72 96 0
        (applyRowsFrom expm1 40 72 0 (applyRowsFrom expm1 0 40 0 M))) =
      some (applyRowsFrom (fun y => expm1 (y ^ 2)) 72 M.length 0
        (applyRowsFrom expm1 0 72 0 M))
    rw [applyRowsFrom_merge expm1 0 40 72 (by norm_num) (by norm_num) 0 M]
    congr 1
    apply applyRowsFrom_clip
    · rw [Nat.zero_add, length_applyRowsFrom]; exact h96
    · rw [Nat.zero_add, length_applyRowsFrom]

/-- Witness for C10 on the two-row matrix `[[3], [4]]`. -/
theorem C10_default_paths_agree_witness :
    (encode_hr [[3], [4]] (canonSlices 0 DEFAULT_BANDS) DEFAULT_BANDS =
        some (hr_mel_encode [[3], [4]] (canonSlices 0 DEFAULT_BANDS)))
    ∧ ([[3], [4]] : Mat).length ≤ 96
    ∧ decode_hr [[3], [4]] (canonSlices 0 DEFAULT_BANDS) DEFAULT_BANDS =
        some (decode_hr_toplevel [[3], [4]] (canonSlices 0 DEFAULT_BANDS)) :=
  ⟨(C10_default_paths_agree [[3], [4]]).1, by simp,
    (C10_default_paths_agree [[3], [4]]).2 (by simp)⟩

/-- C10 counterexample: on the 97-row matrix `replicate 97 [1]` the top-level
hardcoded decoder transforms row 96 with `expm1(y²)`, while the generic
`decode_hr` leaves every row outside the default slices untouched, so the two
decode paths differ. -/
theorem C10_counterexample :
    decode_hr_toplevel (List.replicate 97 [(1 : ℝ)]) (canonSlices 0 DEFAULT_BANDS) ≠
      (decode_hr (List.replicate 97 [(1 : ℝ)]) (canonSlices 0 DEFAULT_BANDS)
        DEFAULT_BANDS).getD [] := by
  intro h
  set M := List.replicate 97 [(1 : ℝ)] with hM
  -- the generic decoder: concrete value and frame property at row 96
  have hval : ∀ b ∈ DEFAULT_BANDS, (decodeFun b.compression).isSome := by
    intro b hb
    exact decodeFun_isSome_of_valid (by
      revert hb
      simp [DEFAULT_BANDS, VALID_COMPRESSIONS]
      rintro (h | h | h) <;> simp [h])
  have hD := hrApply_canonSlices decodeFun DEFAULT_BANDS 0 M hval
  have hgetD : (decode_hr M (canonSlices 0 DEFAULT_BANDS) DEFAULT_BANDS).getD [] =
      mapRowsIdx (transAt decodeFun 0 DEFAULT_BANDS) 0 M := by
    rw [decode_hr, hD]; rfl
  obtain ⟨-, hout⟩ := hrApply_frame decodeFun
    (DEFAULT_BANDS.zip (canonSlices 0 DEFAULT_BANDS)) M
    (mapRowsIdx (transAt decodeFun 0 DEFAULT_BANDS) 0 M) hD
  have hframe : (mapRowsIdx (transAt decodeFun 0 DEFAULT_BANDS) 0 M)[96]? = M[96]? :=
    hout 96 (by decide)
  -- row 96 of the input
  have hM96 : M[96]? = some [(1 : ℝ)] := by
    rw [hM, List.getElem?_replicate]
    norm_num
  -- row 96 of the hardcoded decoder output
  have hL : decode_hr_toplevel M (canonSlices 0 DEFAULT_BANDS) =
      applyRowsFrom (fun y => expm1 (y ^ 2)) 72 97 0 (applyRowsFrom expm1 0 72 0 M) := rfl
  have hL96 : (decode_hr_toplevel M (canonSlices 0 DEFAULT_BANDS))[96]? =
      some [expm1 1] := by
    rw [hL, applyRowsFrom_getElem?, applyRowsFrom_getElem?, hM96]
    norm_num
  rw [h, hgetD, hframe, hM96] at hL96
  have h1 : expm1 1 = (1 : ℝ) := by
    have := Option.some.inj hL96
    simpa using (List.head_eq_of_cons_eq this).symm
  have h2 : (1 : ℝ) + 1 < Real.exp 1 := Real.add_one_lt_exp one_ne_zero
  rw [expm1] at h1
  linarith

end C10
section BuildLemmas

lemma buildAux_snd (mel : MelFn) (sr n_fft : ℕ) (fmax : ℝ) :
    ∀ (bands : List Band) (start : ℕ),
      (buildAux mel sr n_fft fmax start bands).2 = canonSlices start bands := by
  intro bands
  induction bands with
  | nil => intro start; rfl
  | cons b bs ih =>
      intro start
      simp only [buildAux, canonSlices]
      rw [ih (start + b.bins)]

lemma buildAux_fst_length (mel : MelFn) (sr n_fft : ℕ) (fmax : ℝ)
    (hmel : ∀ (sr' n' bins : ℕ) (fmin fm : ℝ), (mel sr' n' bins fmin fm).length = bins) :
    ∀ (bands : List Band) (start : ℕ),
      (buildAux mel sr n_fft fmax start bands).1.length = (bands.map Band.bins).sum := by
  intro bands
  induction bands with
  | nil => intro start; rfl
  | cons b bs ih =>
      intro start
      simp only [buildAux, List.map_cons, List.sum_cons, List.length_append]
      rw [hmel, ih (start + b.bins)]

lemma canonSlices_length : ∀ (bands : List Band) (start : ℕ),
    (canonSlices start bands).length = bands.length := by
  intro bands
  induction bands with
  | nil => intro start; rfl
  | cons b bs ih => intro start; simp [canonSlices, ih (start + b.bins)]

lemma canonSlices_getElem? :
    ∀ (bands : List Band) (start k : ℕ), k < bands.length →
      (canonSlices start bands)[k]? =
        some (start + ((bands.take k).map Band.bins).sum,
          start + ((bands.take (k + 1)).map Band.bins).sum) := by
  intro bands
  induction bands with
  | nil => intro start k hk; simp at hk
  | cons b bs ih =>
      intro start k hk
      cases k with
      | zero => simp [canonSlices]
      | succ k =>
          simp only [canonSlices, List.getElem?_cons_succ]
          rw [ih (start + b.bins) k (by simpa using hk)]
          simp only [List.take_succ_cons, List.map_cons, List.sum_cons]
          rw [Nat.add_assoc, Nat.add_assoc]

end BuildLemmas
section C3

/-- C3: whenever the external mel-filter constructor returns `bins` rows per
band (its documented contract), the basis assembled by `build_hr_mel_basis`
has total row count equal to the sum of the bands' `bins`, and the returned
slices are exactly the contiguous half-open prefix-sum intervals, one per
band in band-set order — so band `k` starts exactly where band `k−1` ends,
with no overlap and no gap, and the last one ends at the total. -/
theorem C3_band_partition :
    ∀ (mel : MelFn) (sr n_fft : ℕ) (fmax : ℝ) (bands : List Band),
      (∀ (sr' n' bins : ℕ) (fmin fm : ℝ), (mel sr' n' bins fmin fm).length = bins) →
      (build_hr_mel_basis mel sr n_fft fmax bands).1.length = (bands.map Band.bins).sum
      ∧ (build_hr_mel_basis mel sr n_fft fmax bands).2 = canonSlices 0 bands
      ∧ (canonSlices 0 bands).length = bands.length
      ∧ ∀ k : ℕ, k < bands.length →
          (canonSlices 0 bands)[k]? =
            some (((bands.take k).map Band.bins).sum,
              ((bands.take (k + 1)).map Band.bins).sum) := by
  intro mel sr n_fft fmax bands hmel
  refine ⟨buildAux_fst_length mel sr n_fft fmax hmel bands 0,
    buildAux_snd mel sr n_fft fmax bands 0, canonSlices_length bands 0, ?_⟩
  intro k hk
  rw [canonSlices_getElem? bands 0 k hk]
  simp

/-- Witness for C3: the default band set with a row-count-respecting filter
constructor; the basis has 40+32+24 = 96 rows and the slices are
`[(0,40), (40,72), (72,96)]`. -/
theorem C3_band_partition_witness :
    (∀ (sr' n' bins : ℕ) (fmin fm : ℝ),
      (((fun _ _ bins _ _ => List.replicate bins []) : MelFn) sr' n' bins fmin fm).length
        = bins)
    ∧ (build_hr_mel_basis (fun _ _ bins _ _ => List.replicate bins [])
          DEFAULT_SR 2048 DEFAULT_FMAX DEFAULT_BANDS).1.length
        = (DEFAULT_BANDS.map Band.bins).sum
    ∧ (build_hr_mel_basis (fun _ _ bins _ _ => List.replicate bins [])
          DEFAULT_SR 2048 DEFAULT_FMAX DEFAULT_BANDS).2 = canonSlices 0 DEFAULT_BANDS
    ∧ (canonSlices 0 DEFAULT_BANDS).length = DEFAULT_BANDS.length
    ∧ ∀ k : ℕ, k < DEFAULT_BANDS.length →
        (canonSlices 0 DEFAULT_BANDS)[k]? =
          some (((DEFAULT_BANDS.take k).map Band.bins).sum,
            ((DEFAULT_BANDS.take (k + 1)).map Band.bins).sum) := by
  have hmel : ∀ (sr' n' bins : ℕ) (fmin fm : ℝ),
      (((fun _ _ bins _ _ => List.replicate bins []) : MelFn) sr' n' bins fmin fm).length
        = bins := by
    intro sr' n' bins fmin fm
    simp
  obtain ⟨h1, h2, h3, h4⟩ :=
    C3_band_partition (fun _ _ bins _ _ => List.replicate bins [])
      DEFAULT_SR 2048 DEFAULT_FMAX DEFAULT_BANDS hmel
  exact ⟨hmel, h1, h2, h3, h4⟩

end C3

section C2

/-- C2 (amended): `build_hr_mel_basis` performs no eager validation — for
every band list, including bands with `bins = 0`, negative or inverted
frequency ranges, or unrecognized compression tags, it returns a basis and
the canonical slice list without signalling any error (band parameters are
merely forwarded to the external mel-filter constructor); an unrecognized
compression tag is rejected only at encode time: `encode_band` fails with the
raised `ValueError` (embedded as `none`) on every input whenever the tag is
not in `VALID_COMPRESSIONS`. -/
theorem C2_no_eager_validation :
    (∀ (mel : MelFn) (sr n_fft : ℕ) (fmax : ℝ) (bands : List Band),
        (build_hr_mel_basis mel sr n_fft fmax bands).2 = canonSlices 0 bands)
    ∧ ∀ c : String, c ∉ VALID_COMPRESSIONS → ∀ values : Mat,
        encode_band values c = none := by
  constructor
  · intro mel sr n_fft fmax bands
    exact buildAux_snd mel sr n_fft fmax bands 0
  · intro c hc values
    simp only [VALID_COMPRESSIONS, List.mem_cons, List.not_mem_nil, or_false,
      not_or] at hc
    obtain ⟨h1, h2, h3⟩ := hc
    simp [encode_band, encodeFun, h1, h2, h3]

/-- Witness for C2 at the unrecognized tag `"bogus"`. -/
theorem C2_no_eager_validation_witness :
    ("bogus" ∉ VALID_COMPRESSIONS) ∧ encode_band [[1]] "bogus" = none :=
  ⟨by decide, C2_no_eager_validation.2 "bogus" (by decide) [[1]]⟩

/-- C2 counterexample: a band with `bins = 0`, `fmin = -1 < 0` and the
unrecognized compression tag `"bogus"` passes basis construction normally
(`build_hr_mel_basis` returns a basis and slices, signalling nothing), while
the unknown tag raises only inside `encode_band`, i.e. at encode time —
refuting the claim that invalid configuration is rejected at basis/band-set
construction time. -/
theorem C2_counterexample :
    build_hr_mel_basis (fun _ _ bins _ _ => List.replicate bins []) 44100 2048 20000
        [⟨-1, 1000, 0, "bogus"⟩] = ([], [(0, 0)])
    ∧ encode_band [[1]] "bogus" = none := by
  exact ⟨rfl, rfl⟩

end C2

section C4

/-- C4: the effective global fmax computed by each entry point equals
`min(requested fmax, sample_rate / 2)` — at most Nyquist, equal to the
request when the request is below Nyquist and to Nyquist otherwise — and
inside `build_hr_mel_basis` each band is built over
`[fmin, min(band fmax, global fmax)]`: pre-clipping the constructor argument
to the global fmax changes nothing, and a recording filter constructor shows
the per-band `(fmin, fmax)` arguments are exactly
`(b.fmin, min b.fmax global_fmax)` in band order. -/
theorem C4_fmax_clipping :
    ∀ (f : ℝ) (sr : ℕ),
      (effective_fmax f sr ≤ (sr : ℝ) / 2
        ∧ effective_fmax f sr ≤ f
        ∧ ((sr : ℝ) / 2 ≤ f → effective_fmax f sr = (sr : ℝ) / 2)
        ∧ (f ≤ (sr : ℝ) / 2 → effective_fmax f sr = f))
      ∧ (∀ (mel : MelFn) (sr' n_fft : ℕ) (g : ℝ) (bands : List Band),
          build_hr_mel_basis mel sr' n_fft g bands =
            build_hr_mel_basis (fun s n bins fmin fm => mel s n bins fmin (min fm g))
              sr' n_fft g bands)
      ∧ (∀ (sr' n_fft : ℕ) (g : ℝ) (bands : List Band),
          (build_hr_mel_basis (fun _ _ _ fmin fm => [[fmin, fm]])
              sr' n_fft g bands).1 =
            bands.map (fun b => [b.fmin, min b.fmax g])) := by
  intro f sr
  refine ⟨⟨min_le_right _ _, min_le_left _ _,
      fun h => min_eq_right h, fun h => min_eq_left h⟩, ?_, ?_⟩
  · intro mel sr' n_fft g bands
    unfold build_hr_mel_basis
    generalize 0 = start
    induction bands generalizing start with
    | nil => rfl
    | cons b bs ih =>
        simp only [buildAux]
        rw [min_assoc, min_self, ih (start + b.bins)]
  · intro sr' n_fft g bands
    unfold build_hr_mel_basis
    generalize 0 = start
    induction bands generalizing start with
    | nil => rfl
    | cons b bs ih =>
        simp only [buildAux, List.map_cons]
        rw [List.singleton_append, ih (start + b.bins)]

/-- Witness for C4 at `fmax = 30000` requested against `sr = 44100`
(Nyquist 22050): the effective fmax is clipped to Nyquist. -/
theorem C4_fmax_clipping_witness :
    ((44100 : ℕ) : ℝ) / 2 ≤ 30000 ∧
      effective_fmax 30000 44100 = ((44100 : ℕ) : ℝ) / 2 :=
  ⟨by norm_num, (C4_fmax_clipping 30000 44100).1.2.2.1 (by norm_num)⟩

end C4
noncomputable section AnalysisUtils

/-- Sum of squared entries of an array. -/
def sumSq (m : Mat) : ℝ := (m.map (fun r => (r.map (fun x => x ^ 2)).sum)).sum

/-- `np.linalg.norm(m, "fro")`: the square root of the sum of squared
entries (entries are real). -/
def frobNorm (m : Mat) : ℝ := Real.sqrt (sumSq m)

/-- Elementwise `target - approx` of equally shaped arrays. -/
def matSub (t a : Mat) : Mat :=
  List.zipWith (fun r s => List.zipWith (fun x y => x - y) r s) t a

/-- The stabilizing constant `1e-12` from `rel_error`. -/
def EPS : ℝ := 1 / 10 ^ 12

/-- `rel_error(target, approx)` from `utils/analysis_utils.py` (the top-level
`analyze_features.py` contains the identical function):
`norm(target - approx, "fro") / (norm(target, "fro") + 1e-12)`. -/
def rel_error (target approx : Mat) : ℝ :=
  frobNorm (matSub target approx) / (frobNorm target + EPS)

/-- A per-representation result record built by `analyze_audio_file`. -/
structure Metric where
  bins : ℕ
  frames : ℕ
  relative_recon_error : ℝ
  bytes_compressed : ℕ
  note : Option String

/-- `shape[0]` of a rectangular 2-D array. -/
def nrows (m : Mat) : ℕ := m.length

/-- `shape[1]` of a rectangular 2-D array. -/
def ncols (m : Mat) : ℕ := (m.headD []).length

/-- The `results["stft"]` record built by `analyze_audio_file`: bins and
frames from the array shape, `relative_recon_error` assigned the literal
`0.0` sentinel, and the compressed byte size delegated to the external size
estimator `size` (`compressed_size_bytes`). -/
def stft_result (size : Mat → ℕ) (stft_power : Mat) : Metric :=
  { bins := nrows stft_power
    frames := ncols stft_power
    relative_recon_error := 0
    bytes_compressed := size stft_power
    note := none }

end AnalysisUtils

section C5C6

lemma sumSq_nonneg (m : Mat) : 0 ≤ sumSq m := by
  apply List.sum_nonneg
  intro x hx
  simp only [List.mem_map] at hx
  obtain ⟨r, -, rfl⟩ := hx
  apply List.sum_nonneg
  intro y hy
  simp only [List.mem_map] at hy
  obtain ⟨z, -, rfl⟩ := hy
  positivity

lemma frobNorm_nonneg (m : Mat) : 0 ≤ frobNorm m := Real.sqrt_nonneg _

lemma EPS_pos : 0 < EPS := by norm_num [EPS]

lemma denom_pos (m : Mat) : 0 < frobNorm m + EPS :=
  add_pos_of_nonneg_of_pos (frobNorm_nonneg m) EPS_pos

lemma sumSq_matSub_self (m : Mat) : sumSq (matSub m m) = 0 := by
  unfold sumSq matSub
  rw [List.zipWith_same]
  induction m with
  | nil => rfl
  | cons r rs ih =>
      simp only [List.map_cons, List.sum_cons, List.zipWith_same]
      rw [show (List.map (fun x => x ^ 2) (r.map (fun x => x - x))).sum = 0 by simp]
      simpa using ih

/-- C5: for every input power spectrogram (and every external size
estimator), the stft entry of `analyze_audio_file` reports
`relative_recon_error = 0` — the literal sentinel, independent of the data,
never computed through the pseudo-inverse path — and, consistently, the
measured `rel_error` of the ground truth against itself is also exactly 0. -/
theorem C5_stft_sentinel :
    ∀ (size : Mat → ℕ) (M : Mat),
      (stft_result size M).relative_recon_error = 0 ∧ rel_error M M = 0 := by
  intro size M
  refine ⟨rfl, ?_⟩
  unfold rel_error frobNorm
  rw [sumSq_matSub_self, Real.sqrt_zero, zero_div]

/-- C6: `rel_error(target, approx)` is the Frobenius norm of
`target - approx` divided by the Frobenius norm of `target` plus `1e-12`;
the denominator is strictly positive and the result non-negative, so the
metric is well-defined and finite even for an all-zero target, where it
degenerates to `‖target - approx‖ / 1e-12`. -/
theorem C6_rel_error_formula :
    ∀ target approx : Mat,
      rel_error target approx * (frobNorm target + EPS) =
          frobNorm (matSub target approx)
        ∧ 0 < frobNorm target + EPS
        ∧ 0 ≤ rel_error target approx
        ∧ (frobNorm target = 0 →
            rel_error target approx = frobNorm (matSub target approx) / EPS) := by
  intro target approx
  refine ⟨div_mul_cancel₀ _ (denom_pos target).ne', denom_pos target,
    div_nonneg (frobNorm_nonneg _) (denom_pos target).le, ?_⟩
  intro h0
  unfold rel_error
  rw [h0, zero_add]

/-- Witness for C6 at the all-zero (empty) target against `[[3]]`. -/
theorem C6_rel_error_formula_witness :
    frobNorm [] = 0 ∧ rel_error [] [[3]] = frobNorm (matSub [] [[3]]) / EPS := by
  have hz : frobNorm [] = 0 := by
    unfold frobNorm sumSq
    simp
  exact ⟨hz, (C6_rel_error_formula [] [[3]]).2.2.2 hz⟩

end C5C6
noncomputable section AggregateDefs

/-- The six representation slots built by `analyze_audio_file` (`"stft"`,
`"mel"`, `"log_mel"`, `"mel_96"`, `"log_mel_96"`, `"hr_mel"`); the dict keys
are embedded as a record since every file produces the same keys. -/
structure Representations (α : Type) where
  stft : α
  mel : α
  log_mel : α
  mel_96 : α
  log_mel_96 : α
  hr_mel : α

/-- A per-file summary record from `analyze_audio_file`. -/
structure FileSummary where
  input_sr : ℕ
  duration_sec : ℝ
  frames : ℕ
  representations : Representations Metric

end AggregateDefs

section C8

end C8
section FileCollection

/-- `AUDIO_EXTENSIONS` from `analyze_features.py` (a set in the source;
order is irrelevant, only membership is used). -/
def AUDIO_EXTENSIONS : List String := [".wav", ".mp3", ".flac", ".ogg", ".m4a", ".aac"]

/-- Python `str.lower()`, embedded over the character data. -/
def lowerStr (s : String) : String := String.mk (s.data.map Char.toLower)

/-- A directory entry as seen through the external `pathlib` collaborator:
its name, its extension (`Path.suffix`), and whether it is a regular file. -/
structure DirEntry where
  name : String
  suffix : String
  isFile : Bool
  deriving DecidableEq

/-- What the filesystem reports for the input path: a regular file, a
directory with its entries, or nothing (`is_file()` and `is_dir()` both
return false). -/
inductive PathKind
  | file : PathKind
  | dir : List DirEntry → PathKind
  | missing : PathKind

/-- The lexicographic path order used by Python's `sorted` on `Path`
objects, embedded as the order on the underlying character data. -/
def pathLe (a b : String) : Prop := a.data ≤ b.data

instance : DecidableRel pathLe :=
  fun a b => inferInstanceAs (Decidable (a.data ≤ b.data))

instance : IsTotal String pathLe := ⟨fun a b => le_total a.data b.data⟩

instance : IsTrans String pathLe := ⟨fun _ _ _ h h' => le_trans h h'⟩

/-- The filter of `collect_audio_files`: regular files whose lower-cased
suffix is a recognized audio extension. -/
def audioEntries (entries : List DirEntry) : List DirEntry :=
  entries.filter (fun e => e.isFile && AUDIO_EXTENSIONS.contains (lowerStr e.suffix))

/-- `collect_audio_files(input_path)` from `analyze_features.py`: a regular
file is returned as a singleton; a directory yields its audio entries in
sorted order; an empty selection or a missing path raises
`FileNotFoundError` (the spec's `NotFoundError`), embedded as `.error`
(message texts abbreviated). -/
def collect_audio_files (self : String) (k : PathKind) : Except String (List String) :=
  match k with
  | .file => .ok [self]
  | .dir entries =>
      let files := List.insertionSort pathLe ((audioEntries entries).map DirEntry.name)
      if files.isEmpty then .error ("No audio files found in " ++ self)
      else .ok files
  | .missing => .error ("Input path not found: " ++ self)

/-- The orchestration order of `main` in `analyze_features.py`: the audio
files are collected first and the per-file analysis (an arbitrary external
computation here) runs only on a successfully collected list. -/
def main_per_file (analyze : String → FileSummary) (self : String) (k : PathKind) :
    Except String (List FileSummary) :=
  (collect_audio_files self k).map (fun fs => fs.map analyze)

end FileCollection

section C9

/-- C9: a missing input path fails with the not-found error before any
analysis runs (for every analysis function); a directory with no recognized
audio entry fails likewise; and a directory with audio entries yields
exactly those entries' names, sorted. -/
theorem C9_collect_audio_files :
    ∀ self : String,
      (collect_audio_files self .missing = .error ("Input path not found: " ++ self)
        ∧ ∀ analyze, main_per_file analyze self .missing =
            .error ("Input path not found: " ++ self))
      ∧ ∀ entries : List DirEntry,
          (audioEntries entries = [] →
            collect_audio_files self (.dir entries) =
                .error ("No audio files found in " ++ self)
              ∧ ∀ analyze, main_per_file analyze self (.dir entries) =
                  .error ("No audio files found in " ++ self))
          ∧ (audioEntries entries ≠ [] →
              ∃ l, collect_audio_files self (.dir entries) = .ok l
                ∧ l.Perm ((audioEntries entries).map DirEntry.name)
                ∧ List.Sorted pathLe l) := by
  intro self
  refine ⟨⟨rfl, fun analyze => rfl⟩, ?_⟩
  intro entries
  constructor
  · intro h
    have hc : collect_audio_files self (.dir entries) =
        .error ("No audio files found in " ++ self) := by
      simp [collect_audio_files, h]
    exact ⟨hc, fun analyze => by rw [main_per_file, hc]; rfl⟩
  · intro h
    have hperm := List.perm_insertionSort pathLe ((audioEntries entries).map DirEntry.name)
    have hnonempty :
        (List.insertionSort pathLe ((audioEntries entries).map DirEntry.name)).isEmpty
          = false := by
      rw [List.isEmpty_eq_false]
      intro hc
      apply h
      have hlen := hperm.length_eq
      rw [hc] at hlen
      simp only [List.length_nil, List.length_map] at hlen
      exact List.length_eq_zero.mp hlen.symm
    refine ⟨List.insertionSort pathLe ((audioEntries entries).map DirEntry.name), ?_,
      hperm, List.sorted_insertionSort pathLe _⟩
    simp [collect_audio_files, hnonempty]

/-- Witness for C9: a directory holding `b.wav`, `a.WAV` (upper-case
extension), a text file and a subdirectory yields `[a.WAV, b.wav]`;
a directory holding only a text file errors. -/
theorem C9_collect_audio_files_witness :
    audioEntries [⟨"b.wav", ".wav", true⟩, ⟨"a.WAV", ".WAV", true⟩,
        ⟨"notes.txt", ".txt", true⟩, ⟨"sub", "", false⟩] ≠ []
    ∧ (∃ l, collect_audio_files "music"
          (.dir [⟨"b.wav", ".wav", true⟩, ⟨"a.WAV", ".WAV", true⟩,
            ⟨"notes.txt", ".txt", true⟩, ⟨"sub", "", false⟩]) = .ok l
        ∧ l.Perm ((audioEntries [⟨"b.wav", ".wav", true⟩, ⟨"a.WAV", ".WAV", true⟩,
            ⟨"notes.txt", ".txt", true⟩, ⟨"sub", "", false⟩]).map DirEntry.name)
        ∧ List.Sorted pathLe l)
    ∧ audioEntries [⟨"notes.txt", ".txt", true⟩] = []
    ∧ collect_audio_files "docs" (.dir [⟨"notes.txt", ".txt", true⟩]) =
        .error ("No audio files found in " ++ "docs")
    ∧ collect_audio_files "gone" .missing =
        .error ("Input path not found: " ++ "gone") := by
  have h1 : audioEntries [⟨"b.wav", ".wav", true⟩, ⟨"a.WAV", ".WAV", true⟩,
      ⟨"notes.txt", ".txt", true⟩, ⟨"sub", "", false⟩] ≠ [] := by decide
  have h2 : audioEntries [⟨"notes.txt", ".txt", true⟩] = [] := by decide
  exact ⟨h1, ((C9_collect_audio_files "music").2 _).2 h1, h2,
    (((C9_collect_audio_files "docs").2 _).1 h2).1,
    (C9_collect_audio_files "gone").1.1⟩

end C9
